import Mathlib

/-!
Verification of the core of the omega_h unstructured mesh adaptation engine
against its natural-language specification.

Modelling conventions (shallow embedding):
* `Real` (C++ double) values are modelled as exact rationals (`ℚ`);
  the claims treated here concern control flow and exact test values,
  not floating-point rounding.
* machine integers (`LO`, `GO`, `I8`, `coord_t`) are modelled as `ℕ` or `ℤ`;
  all values involved stay far from any overflow boundary.
* arrays (`Read<T>`, `LOs`, `Reals`) are modelled as Lean lists, indexed with
  `List.getD` (C array indexing; all source accesses are in bounds).
* a single-rank (serial) run is modelled: `comm->allreduce` of one value is
  that value, `reduce_and` of one boolean is that boolean and array
  synchronization over the communicator is the identity.
* `CHECK(cond)` (a fatal assertion) is modelled by an `Option` result,
  `none` meaning the program aborted.

Definitions are translated from the source files; functions whose
implementation is not part of the source tree (only their declarations,
tests or callers are) are modelled from the specification and carry a
doc comment starting with `Modelled from the spec:`.
-/

namespace OmegaH

/-- C array indexing on the list model of an array of naturals. -/
def getA (X : List ℕ) (i : ℕ) : ℕ := X.getD i 0

/-! ### Linear partitioning (`linpart.hpp`) -/

/-- A `Remotes` value (`internal.hpp`): parallel arrays of owner ranks and
owner-local indices. -/
structure Remotes where
  ranks : List ℕ
  idxs : List ℕ
deriving DecidableEq, Repr

/-- Modelled from the spec: `linear_partition_size` (declared in
`linpart.hpp`; its implementation file is not in the source tree).  The
linear partition of `total` global IDs over `size` ranks gives each rank
`total / size` IDs, plus one extra for each of the first `total % size`
ranks, so that the scenario sizes `[4, 3]` arise for `total=7, size=2`. -/
def linear_partition_size (total : ℕ) (comm_size : ℕ) (comm_rank : ℕ) : ℕ :=
  total / comm_size + (if comm_rank < total % comm_size then 1 else 0)

/-- Modelled from the spec: `globals_to_linear_owners` (declared in
`linpart.hpp`; its implementation file is not in the source tree).  Global
IDs are distributed in contiguous blocks: the first `total % size` ranks
hold `total / size + 1` consecutive IDs each, the remaining ranks hold
`total / size` each; each global ID maps to the rank of the block that
contains it together with its offset inside that block. -/
def globals_to_linear_owners (globals : List ℕ) (total : ℕ) (comm_size : ℕ) :
    Remotes :=
  let quot := total / comm_size
  let rem := total % comm_size
  let owner := fun (g : ℕ) =>
    if g < (quot + 1) * rem then (g / (quot + 1), g % (quot + 1))
    else (rem + (g - (quot + 1) * rem) / quot, (g - (quot + 1) * rem) % quot)
  { ranks := globals.map fun g => (owner g).1
    idxs := globals.map fun g => (owner g).2 }

/-! ### Hilbert curve transforms (`hilbert.cpp`) -/

/-- The shared inner-loop body of the bit-mask loops of `TransposetoAxes`
(hilbert.cpp lines 40-42) and `AxestoTranspose` (lines 50-52): for a fixed
bit mask `Q` (with `P = Q - 1`) and coordinate index `i`, either invert the
low bits of `X[0]` or exchange the low bits of `X[0]` and `X[i]`. -/
def hilbertInner (Q : ℕ) (X : List ℕ) (i : ℕ) : List ℕ :=
  let P := Q - 1
  if getA X i &&& Q ≠ 0 then
    X.set 0 (getA X 0 ^^^ P)
  else
    let t := (getA X 0 ^^^ getA X i) &&& P
    (X.set 0 (getA X 0 ^^^ t)).set i (getA X i ^^^ t)

/-- `TransposetoAxes` from hilbert.cpp: transform the Hilbert transposed form
into geometrical axes, for `b` bits per coordinate and `n` coordinates.
The C loop `for (Q = 2; Q != N; Q <<= 1)` with `N = 2^b` runs over
`Q = 2, 4, ..., 2^(b-1)`, i.e. `b - 1` iterations, its inner loop running
`i = n-1` down to `0`. -/
def TransposetoAxes (X0 : List ℕ) (b n : ℕ) : List ℕ :=
  -- Gray code by H ^ (H/2)
  let t := getA X0 (n - 1) >>> 1
  let X1 := (List.range (n - 1)).foldl
    (fun X k =>
      let i := n - 1 - k
      X.set i (getA X i ^^^ getA X (i - 1))) X0
  let X2 := X1.set 0 (getA X1 0 ^^^ t)
  -- Undo excess work
  (List.range (b - 1)).foldl
    (fun X k =>
      let Q := 2 <<< k
      ((List.range n).reverse).foldl (hilbertInner Q) X) X2

/-- `AxestoTranspose` from hilbert.cpp: transform geometrical axes into the
Hilbert transposed form, for `b` bits per coordinate and `n` coordinates.
The C loop `for (Q = M; Q > 1; Q >>= 1)` with `M = 2^(b-1)` runs over
`Q = M, M/2, ..., 2`, i.e. `b - 1` iterations, its inner loop running
`i = 0` up to `n-1`. -/
def AxestoTranspose (X0 : List ℕ) (b n : ℕ) : List ℕ :=
  let M := 1 <<< (b - 1)
  -- Inverse undo
  let X1 := (List.range (b - 1)).foldl
    (fun X k =>
      let Q := M >>> k
      (List.range n).foldl (hilbertInner Q) X) X0
  -- Gray encode
  let X2 := (List.range (n - 1)).foldl
    (fun X k =>
      let i := k + 1
      X.set i (getA X i ^^^ getA X (i - 1))) X1
  let t := (List.range (b - 1)).foldl
    (fun t k =>
      let Q := M >>> k
      if getA X2 (n - 1) &&& Q ≠ 0 then t ^^^ (Q - 1) else t) 0
  (List.range n).foldl (fun X i => X.set i (getA X i ^^^ t)) X2

/-- Bit-interleaving of the transposed form, exactly as printed by
`test_hilbert` in unit_tests.cpp: the output bits are
`X[0]>>(b-1) & 1, X[1]>>(b-1) & 1, ..., X[n-1]>>0 & 1`, read as a binary
number, most significant bit first. -/
def interleave (X : List ℕ) (b n : ℕ) : ℕ :=
  (List.range b).foldl
    (fun acc k =>
      (List.range n).foldl
        (fun acc i => acc * 2 + ((getA X i >>> (b - 1 - k)) &&& 1)) acc) 0

/-! ### Alignment codes for triangles (spec section 3, `test_tri_align`) -/

/-- Modelled from the spec: `make_code` packs
`{flip: 1 bit, rotation: 2 bits, which_down: remainder}` into an 8-bit
alignment code, the flip bit lowest (align.hpp is not in the source tree;
the layout is fixed up to bit order, which no claim depends on). -/
def make_code (flip : Bool) (rotation : ℕ) (which_down : ℕ) : ℕ :=
  (which_down <<< 3) ||| (rotation <<< 1) ||| (if flip then 1 else 0)

/-- The flip bit of an alignment code. -/
def code_is_flipped (code : ℕ) : Bool := code % 2 = 1

/-- The rotation field (2 bits) of an alignment code. -/
def code_rotation (code : ℕ) : ℕ := (code >>> 1) % 4

/-- The which-down field of an alignment code. -/
def code_which_down (code : ℕ) : ℕ := code >>> 3

/-- The flip permutation on triangle vertex positions: fixes position 0 and
exchanges positions 1 and 2 (from `test_tri_align`:
`align_adj(make_code(true,0,0), [0,1,2]) = [0,2,1]`). -/
def flip_index (i : ℕ) : ℕ := if i = 0 then 0 else 3 - i

/-- The input position that output position `i` of `align_adj` reads from:
`align_adj` writes `out[(j + rotation) % 3] = in[j]` for an unflipped code
(from `test_tri_align`: rotation 1 sends `[0,1,2]` to `[2,0,1]`) and
composes that with the flip exchange, flip applied after rotation. -/
def align_src (code : ℕ) (i : ℕ) : ℕ :=
  let i' := if code_is_flipped code then flip_index i else i
  (i' + 3 - code_rotation code) % 3

/-- Modelled from the spec: `align_adj` for triangles (degree 3) applies the
alignment permutation encoded by `code` to a vertex tuple (align.hpp is not
in the source tree; the action on tuples is fixed by `test_tri_align`). -/
def align_adj (code : ℕ) (a : List ℤ) : List ℤ :=
  (List.range 3).map fun i => a.getD (align_src code i) 0

/-- Modelled from the spec: `compound_alignments(a, b)` composes two codes so
that applying `a` then `b` equals applying the result.  The composite of
flip-after-rotation forms follows the dihedral-group relation: the flips
add modulo 2 and the second rotation acts reversed when the first code is
flipped. -/
def compound_alignments (code1 code2 : ℕ) : ℕ :=
  let f1 := code_is_flipped code1
  let r1 := code_rotation code1
  let f2 := code_is_flipped code2
  let r2 := code_rotation code2
  make_code (xor f1 f2) ((r1 + (if f1 then (3 - r2 % 3) % 3 else r2 % 3)) % 3) 0

/-- Modelled from the spec: the inverse of an alignment code, satisfying the
round-trip `compound_alignments(c, invert_alignment(c)) = identity`. -/
def invert_alignment (code : ℕ) : ℕ :=
  let f := code_is_flipped code
  let r := code_rotation code
  make_code f (if f then r % 3 else (3 - r % 3) % 3) 0

lemma getD_map_range_z (g : ℕ → ℤ) (n i : ℕ) :
    ((List.range n).map g).getD i 0 = if i < n then g i else 0 := by
  by_cases h : i < n
  · rw [List.getD_eq_getElem?_getD, List.getElem?_map, List.getElem?_range h]
    simp [h]
  · rw [List.getD_eq_default]
    · simp [h]
    · rw [List.length_map, List.length_range]
      omega

lemma align_src_lt (code i : ℕ) : align_src code i < 3 := by
  unfold align_src
  exact Nat.mod_lt _ (by omega)

/-- C4: for every valid 8-bit alignment code `c` (a flip bit and a rotation
below 3), `compound_alignments c (invert_alignment c)` is the identity code;
and for every pair of codes `a`, `b`, applying alignment `a` and then
alignment `b` to a triangle's vertex tuple gives the same result as applying
`compound_alignments a b` once. -/
theorem compound_alignments_correct :
    (∀ (f : Bool) (r : Fin 3),
      compound_alignments (make_code f r 0) (invert_alignment (make_code f r 0)) =
        make_code false 0 0) ∧
    (∀ (f1 f2 : Bool) (r1 r2 : Fin 3) (a : List ℤ),
      align_adj (make_code f2 r2 0) (align_adj (make_code f1 r1 0) a) =
        align_adj (compound_alignments (make_code f1 r1 0) (make_code f2 r2 0)) a) := by
  constructor
  · decide
  · have hidx : ∀ (f1 f2 : Bool) (r1 r2 : Fin 3) (i : Fin 3),
        align_src (make_code f1 r1 0) (align_src (make_code f2 r2 0) i) =
          align_src (compound_alignments (make_code f1 r1 0) (make_code f2 r2 0)) i := by
      decide
    intro f1 f2 r1 r2 a
    unfold align_adj
    apply List.map_congr_left
    intro i hi
    rw [List.mem_range] at hi
    rw [getD_map_range_z, if_pos (align_src_lt _ _)]
    congr 1
    exact hidx f1 f2 r1 r2 ⟨i, hi⟩

/-! ### Bulk gather and scatter (spec section 4.1) -/

/-- Modelled from the spec: `map(a2b, data_b, ncomps) → data_a` — gather,
`out[i] = data_b[a2b[i]]` componentwise (the implementation file of the array
primitives is not in the source tree).  The output has
`a2b.length * ncomps` entries. -/
def map (a2b : List ℕ) (data_b : List ℚ) (ncomps : ℕ) : List ℚ :=
  (List.range (a2b.length * ncomps)).map fun j =>
    data_b.getD (getA a2b (j / ncomps) * ncomps + j % ncomps) 0

/-- Modelled from the spec: `unmap(a2b, data_a, ncomps) → data_b` — scatter
into an array over the b-space, requiring `a2b` injective: entry `a2b[i]` of
the result is `data_a[i]`, componentwise.  `nb` is the size of the b-space;
entries not hit by `a2b` are left at zero. -/
def unmap (a2b : List ℕ) (data_a : List ℚ) (nb ncomps : ℕ) : List ℚ :=
  (List.range (nb * ncomps)).map fun j =>
    match (List.range a2b.length).find? (fun i => getA a2b i = j / ncomps) with
    | some i => data_a.getD (i * ncomps + j % ncomps) 0
    | none => 0

lemma getD_map_range_q (g : ℕ → ℚ) (n i : ℕ) :
    ((List.range n).map g).getD i 0 = if i < n then g i else 0 := by
  by_cases h : i < n
  · rw [List.getD_eq_getElem?_getD, List.getElem?_map, List.getElem?_range h]
    simp [h]
  · rw [List.getD_eq_default]
    · simp [h]
    · rw [List.length_map, List.length_range]
      omega

/-- C3: for every data array `m` with `n * ncomps` entries and every
permutation `perm` of `[0, n)`, composing the gather operation `map` with
the scatter operation `unmap` over `perm` returns the original array:
`unmap perm (map perm m ncomps) n ncomps = m`. -/
theorem unmap_map_permutation (perm : List ℕ) (n : ℕ) (m : List ℚ)
    (ncomps : ℕ) (hperm : List.Perm perm (List.range n))
    (hm : m.length = n * ncomps) :
    unmap perm (map perm m ncomps) n ncomps = m := by
  have hplen : perm.length = n := by
    rw [hperm.length_eq, List.length_range]
  apply List.ext_getElem
  · unfold unmap
    rw [List.length_map, List.length_range, hm]
  · intro j hj hj2
    rw [hm] at hj2
    have hc : 0 < ncomps := by
      rcases Nat.eq_zero_or_pos ncomps with h | h
      · rw [h, Nat.mul_zero] at hj2
        omega
      · exact h
    have hjdiv : j / ncomps < n := Nat.div_lt_of_lt_mul (Nat.mul_comm n ncomps ▸ hj2)
    unfold unmap
    rw [List.getElem_map, List.getElem_range]
    have hmem : j / ncomps ∈ perm :=
      hperm.mem_iff.mpr (List.mem_range.mpr hjdiv)
    obtain ⟨i, hi, hgi⟩ := List.mem_iff_getElem.mp hmem
    have hsome : ((List.range perm.length).find?
        (fun i => getA perm i = j / ncomps)).isSome := by
      rw [List.find?_isSome]
      refine ⟨i, List.mem_range.mpr hi, ?_⟩
      simp only [decide_eq_true_eq]
      unfold getA
      rw [List.getD_eq_getElem?_getD, List.getElem?_eq_getElem hi]
      exact hgi
    obtain ⟨i₀, hfind⟩ := Option.isSome_iff_exists.mp hsome
    have hp : getA perm i₀ = j / ncomps := by
      have := List.find?_some hfind
      simpa using this
    have hi₀ : i₀ < perm.length := by
      have := List.mem_of_find?_eq_some hfind
      exact List.mem_range.mp this
    rw [hfind]
    unfold map
    dsimp only
    rw [getD_map_range_q]
    have hidx : i₀ * ncomps + j % ncomps < perm.length * ncomps := by
      have hmod : j % ncomps < ncomps := Nat.mod_lt _ hc
      calc i₀ * ncomps + j % ncomps < i₀ * ncomps + ncomps := by omega
        _ = (i₀ + 1) * ncomps := by ring
        _ ≤ perm.length * ncomps := Nat.mul_le_mul_right _ (by omega)
    rw [if_pos hidx]
    have hdiv : (i₀ * ncomps + j % ncomps) / ncomps = i₀ := by
      rw [Nat.mul_comm i₀ ncomps, Nat.mul_add_div hc]
      have hmod : j % ncomps < ncomps := Nat.mod_lt _ hc
      rw [Nat.div_eq_of_lt hmod, Nat.add_zero]
    have hmod2 : (i₀ * ncomps + j % ncomps) % ncomps = j % ncomps := by
      rw [Nat.mul_comm i₀ ncomps, Nat.mul_add_mod]
      exact Nat.mod_mod_of_dvd j dvd_rfl
    rw [hdiv, hmod2, hp]
    have hjeq : j / ncomps * ncomps + j % ncomps = j := by
      rw [Nat.mul_comm]
      exact Nat.div_add_mod j ncomps
    rw [hjeq]
    exact List.getD_eq_getElem m 0 (by omega)

/-- Witness for C3: the round-trip at the concrete permutation `[1, 0]`
of `[0, 2)` and data `[1/2, 3]` with one component. -/
theorem unmap_map_permutation_witness :
    unmap [1, 0] (map [1, 0] [1/2, 3] 1) 2 1 = [1/2, 3] :=
  unmap_map_permutation [1, 0] 2 [1/2, 3] 1 (by decide) (by decide)

/-! ### Fan and funnel inversion (tested by `test_fan_and_funnel`) -/

/-- Modelled from the spec: `invert_funnel(f, n)` (its implementation file is
not in the source tree; the behaviour is fixed by the spec scenarios).  A
funnel is a sorted map from `[0, m)` to `[0, n)`; its inverse fan is the
offset array of length `n + 1` whose entry `k` is the number of funnel
entries below `k`, so that `invert_funnel [0,0,1,1,2,2] 3 = [0,2,4,6]`. -/
def invert_funnel (f : List ℕ) (n : ℕ) : List ℕ :=
  (List.range (n + 1)).map fun k => f.countP fun x => x < k

/-- Modelled from the spec: `invert_fan(fan)` (its implementation file is not
in the source tree).  Entry `k` of the fan is repeated
`fan[k+1] - fan[k]` times, so that `invert_fan [0,2,4,6] = [0,0,1,1,2,2]`. -/
def invert_fan (fan : List ℕ) : List ℕ :=
  (List.range (fan.length - 1)).flatMap fun k =>
    List.replicate (getA fan (k + 1) - getA fan k) k

lemma getA_map_range (g : ℕ → ℕ) (n i : ℕ) :
    getA ((List.range n).map g) i = if i < n then g i else 0 := by
  unfold getA
  by_cases h : i < n
  · rw [List.getD_eq_getElem?_getD, List.getElem?_map, List.getElem?_range h]
    simp [h]
  · rw [List.getD_eq_default]
    · simp [h]
    · rw [List.length_map, List.length_range]
      omega

lemma countP_lt_succ (f : List ℕ) (k : ℕ) :
    (f.countP fun x => x < k + 1) = (f.countP fun x => x < k) + f.count k := by
  induction f with
  | nil => simp
  | cons x t ih =>
    simp only [List.countP_cons, List.count_cons, ih]
    by_cases h1 : x < k
    · have h2 : x < k + 1 := Nat.lt_succ_of_lt h1
      have h3 : ¬(x == k) = true := by simp; omega
      simp [h1, h2, h3]
      omega
    · by_cases h2 : x = k
      · subst h2
        simp [h1]
        omega
      · have h3 : ¬x < k + 1 := by omega
        have h4 : ¬(x == k) = true := by simp [h2]
        simp [h1, h3, h4]

lemma sum_map_range_ite (n a c : ℕ) :
    ((List.range n).map fun k => if a = k then c else 0).sum =
      if a < n then c else 0 := by
  induction n with
  | zero => simp
  | succ m ih =>
    rw [List.range_succ, List.map_append, List.sum_append, ih]
    by_cases h : a = m
    · subst h
      simp
    · by_cases h2 : a < m
      · have h3 : a < m + 1 := by omega
        simp [h, h2, h3]
      · have h3 : ¬a < m + 1 := by omega
        simp [h, h2, h3]

lemma flatMap_count_of_sorted (n : ℕ) (f : List ℕ) (hs : f.Sorted (· ≤ ·))
    (hlt : ∀ x ∈ f, x < n) :
    ((List.range n).flatMap fun k => List.replicate (f.count k) k) = f := by
  apply List.eq_of_perm_of_sorted ?_ ?_ hs
  · rw [List.perm_iff_count]
    intro a
    rw [List.count_flatMap]
    have : ((List.range n).map (List.count a ∘ fun k => List.replicate (f.count k) k)) =
        ((List.range n).map fun k => if a = k then f.count k else 0) := by
      apply List.map_congr_left
      intro k _
      simp only [Function.comp_apply, List.count_replicate]
      by_cases h : a = k
      · subst h
        simp
      · have h2 : ¬(k == a) = true := by simp; omega
        simp [h, h2]
    rw [this]
    have hsum : ((List.range n).map fun k => if a = k then f.count k else 0).sum =
        if a < n then f.count a else 0 := by
      have := sum_map_range_ite n a (f.count a)
      calc ((List.range n).map fun k => if a = k then f.count k else 0).sum
          = ((List.range n).map fun k => if a = k then f.count a else 0).sum := by
            congr 1
            apply List.map_congr_left
            intro k _
            by_cases h : a = k
            · subst h; rfl
            · simp [h]
        _ = if a < n then f.count a else 0 := this
    rw [hsum]
    by_cases h : a < n
    · simp [h]
    · simp only [h, if_false]
      symm
      rw [List.count_eq_zero]
      intro hmem
      exact h (hlt a hmem)
  · unfold List.Sorted
    rw [List.flatMap_def, List.pairwise_flatten]
    refine ⟨?_, ?_⟩
    · intro l hl
      rw [List.mem_map] at hl
      obtain ⟨k, -, rfl⟩ := hl
      exact List.pairwise_replicate.mpr (Or.inr le_rfl)
    · rw [List.pairwise_map]
      apply List.Pairwise.imp ?_ (List.pairwise_lt_range n)
      intro k₁ k₂ hk x hx y hy
      rw [List.eq_of_mem_replicate hx, List.eq_of_mem_replicate hy]
      omega

/-- C7: `invert_funnel` and `invert_fan` are mutual inverses on sorted
inputs: for every sorted funnel array `f` with values below `n`,
`invert_fan (invert_funnel f n) = f`; in particular
`invert_funnel [0,0,1,1,2,2] 3 = [0,2,4,6]` and
`invert_fan [0,2,4,6] = [0,0,1,1,2,2]`. -/
theorem funnel_fan_mutual_inverses :
    (∀ (f : List ℕ) (n : ℕ), f.Sorted (· ≤ ·) → (∀ x ∈ f, x < n) →
      invert_fan (invert_funnel f n) = f) ∧
    invert_funnel [0, 0, 1, 1, 2, 2] 3 = [0, 2, 4, 6] ∧
    invert_fan [0, 2, 4, 6] = [0, 0, 1, 1, 2, 2] := by
  refine ⟨?_, by decide, by decide⟩
  intro f n hs hlt
  unfold invert_fan invert_funnel
  rw [List.length_map, List.length_range, Nat.add_sub_cancel]
  have hcong : ∀ k ∈ List.range n,
      List.replicate
        (getA ((List.range (n + 1)).map fun j => f.countP fun x => x < j) (k + 1) -
         getA ((List.range (n + 1)).map fun j => f.countP fun x => x < j) k) k =
      List.replicate (f.count k) k := by
    intro k hk
    rw [List.mem_range] at hk
    rw [getA_map_range, getA_map_range, if_pos (by omega : k + 1 < n + 1),
      if_pos (by omega : k < n + 1), countP_lt_succ]
    congr 1
    omega
  calc ((List.range n).flatMap fun k =>
          List.replicate
            (getA ((List.range (n + 1)).map fun j => f.countP fun x => x < j) (k + 1) -
             getA ((List.range (n + 1)).map fun j => f.countP fun x => x < j) k) k)
      = (List.range n).flatMap fun k => List.replicate (f.count k) k := by
        rw [List.flatMap_def, List.flatMap_def]
        congr 1
        exact List.map_congr_left hcong
    _ = f := flatMap_count_of_sorted n f hs hlt

/-- Witness for C7: the general inverse statement applied to the concrete
sorted funnel `[1, 1, 2]` with `n = 3`. -/
theorem funnel_fan_mutual_inverses_witness :
    invert_fan (invert_funnel [1, 1, 2] 3) = [1, 1, 2] :=
  funnel_fan_mutual_inverses.1 [1, 1, 2] 3 (by decide) (by decide)

/-- C6: for the linear partition of 7 global IDs over 2 ranks,
`linear_partition_size` returns 4 for rank 0 and 3 for rank 1, and
`globals_to_linear_owners` maps the global IDs `[6,5,4,3,2,1,0]` to owner
ranks `[1,1,1,0,0,0,0]` with local indices `[2,1,0,3,2,1,0]`. -/
theorem linpart_scenario :
    linear_partition_size 7 2 0 = 4 ∧ linear_partition_size 7 2 1 = 3 ∧
    globals_to_linear_owners [6, 5, 4, 3, 2, 1, 0] 7 2 =
      { ranks := [1, 1, 1, 0, 0, 0, 0], idxs := [2, 1, 0, 3, 2, 1, 0] } :=
  ⟨rfl, rfl, rfl⟩

/-- C5: for the 3D point with axis coordinates (5, 10, 20) and b = 5 bits per
coordinate, `AxestoTranspose` produces a transposed form whose
bit-interleaving is the 15-bit Hilbert integer 7865 = 0b001111010111001, and
applying the inverse transform `TransposetoAxes` to that transposed form
returns the original coordinates (5, 10, 20). -/
theorem hilbert_roundtrip :
    interleave (AxestoTranspose [5, 10, 20] 5 3) 5 3 = 7865 ∧
    TransposetoAxes (AxestoTranspose [5, 10, 20] 5 3) 5 3 = [5, 10, 20] :=
  ⟨rfl, rfl⟩

/-! ### Metric from Hessian (metric.cpp) -/

/-- `metric_from_hessian` from metric.cpp, modelled at the eigendecomposition
interface: the symmetric eigendecomposition (`decompose_eigen` /
`compose_eigen`) is an external numeric primitive (spec section 6) whose
implementation is not in the source tree, so the Hessian is represented by
its eigenvector frame `q` (kept fully abstract and passed through) and its
eigenvalue list `l`.  Following metric.cpp lines 138-152, each eigenvalue
becomes `min(max(dim² · |l i| / (2 (dim+1)² · eps), 1/hmax²), 1/hmin²)` and
the frame is unchanged. -/
def metric_from_hessian {α : Type} (dim : ℕ) (q : α) (l : List ℚ)
    (eps hmin hmax : ℚ) : α × List ℚ :=
  let c_num : ℚ := (dim : ℚ) ^ 2
  let c_denom : ℚ := 2 * ((dim : ℚ) + 1) ^ 2
  (q, l.map fun li =>
    min (max ((c_num * |li|) / (c_denom * eps)) (1 / hmax ^ 2)) (1 / hmin ^ 2))

/-- C9: for a symmetric input matrix given by its eigendecomposition and
parameters with `eps > 0` and `0 < hmin ≤ hmax`, `metric_from_hessian`
keeps the eigenvectors of H, produces the eigenvalues obtained by taking
absolute values, scaling by `dim² / (2 (dim+1)² eps)` and clamping, and
every resulting eigenvalue lies in the interval `[1/hmax², 1/hmin²]`. -/
theorem metric_from_hessian_eigen_bounds {α : Type} (dim : ℕ) (q : α)
    (l : List ℚ) (eps hmin hmax : ℚ) (_heps : 0 < eps) (hmin_pos : 0 < hmin)
    (hle : hmin ≤ hmax) :
    (metric_from_hessian dim q l eps hmin hmax).1 = q ∧
    (metric_from_hessian dim q l eps hmin hmax).2 = (l.map fun li =>
      min (max (((dim : ℚ) ^ 2 * |li|) / (2 * ((dim : ℚ) + 1) ^ 2 * eps))
        (1 / hmax ^ 2)) (1 / hmin ^ 2)) ∧
    ∀ x ∈ (metric_from_hessian dim q l eps hmin hmax).2,
      1 / hmax ^ 2 ≤ x ∧ x ≤ 1 / hmin ^ 2 := by
  refine ⟨rfl, rfl, ?_⟩
  intro x hx
  unfold metric_from_hessian at hx
  simp only [List.mem_map] at hx
  obtain ⟨li, -, rfl⟩ := hx
  have hmax_pos : 0 < hmax := lt_of_lt_of_le hmin_pos hle
  have hsq : hmin ^ 2 ≤ hmax ^ 2 := by nlinarith
  have hsq_pos : 0 < hmin ^ 2 := by positivity
  have hbound : 1 / hmax ^ 2 ≤ 1 / hmin ^ 2 :=
    one_div_le_one_div_of_le hsq_pos hsq
  exact ⟨le_min (le_max_right _ _) hbound, min_le_right _ _⟩

/-- Witness for C9: the eigenvalue bounds at `dim = 2`, eigenvalues `[4, 0]`,
`eps = 1`, `hmin = 1`, `hmax = 2`. -/
theorem metric_from_hessian_eigen_bounds_witness :
    (metric_from_hessian 2 (0 : ℤ) [4, 0] 1 1 2).1 = 0 ∧
    (metric_from_hessian 2 (0 : ℤ) [4, 0] 1 1 2).2 = ([4, 0].map fun li =>
      min (max (((2 : ℕ) : ℚ) ^ 2 * |li| / (2 * (((2 : ℕ) : ℚ) + 1) ^ 2 * 1))
        (1 / 2 ^ 2)) (1 / 1 ^ 2)) ∧
    ∀ x ∈ (metric_from_hessian 2 (0 : ℤ) [4, 0] 1 1 2).2,
      1 / 2 ^ 2 ≤ x ∧ x ≤ 1 / 1 ^ 2 :=
  metric_from_hessian_eigen_bounds 2 (0 : ℤ) [4, 0] 1 1 2 (by norm_num)
    (by norm_num) (by norm_num)

/-! ### Collapse codes (spec section 4.4; collapse.hpp is not in the source
tree, the bit encoding is fixed by the spec: DONT_COLLAPSE = 0b00,
COLLAPSE_V0 = 0b01, COLLAPSE_V1 = 0b10, COLLAPSE_BOTH = 0b11) -/

/-- The `DONT_COLLAPSE` code. -/
def DONT_COLLAPSE : ℕ := 0

/-- Modelled from the spec: `collapses(code, eev)` — whether the collapse
code allows collapsing endpoint `eev` of the edge (bit `eev` of the code). -/
def collapses (code : ℕ) (eev : ℕ) : Bool := code.testBit eev

/-- Modelled from the spec: `dont_collapse(code, eev)` — clear bit `eev` of
the 8-bit collapse code. -/
def dont_collapse (code : ℕ) (eev : ℕ) : ℕ := code &&& (255 ^^^ (1 <<< eev))

lemma collapses_dont_collapse_self (c j : ℕ) (hj : j < 8) :
    collapses (dont_collapse c j) j = false := by
  unfold collapses dont_collapse
  rw [Nat.testBit_land, Nat.testBit_xor, Nat.testBit_shiftLeft]
  have h255 : (255 : ℕ) = 2 ^ 8 - 1 := rfl
  rw [h255, Nat.testBit_two_pow_sub_one]
  have h1 : (1 : ℕ) = 2 ^ 1 - 1 := rfl
  rw [h1, Nat.testBit_two_pow_sub_one]
  simp [hj]

lemma collapses_dont_collapse_other (c i j : ℕ) (hi : i < 8) (hij : i ≠ j) :
    collapses (dont_collapse c j) i = collapses c i := by
  unfold collapses dont_collapse
  rw [Nat.testBit_land, Nat.testBit_xor, Nat.testBit_shiftLeft]
  have h255 : (255 : ℕ) = 2 ^ 8 - 1 := rfl
  rw [h255, Nat.testBit_two_pow_sub_one]
  have h1 : (1 : ℕ) = 2 ^ 1 - 1 := rfl
  rw [h1, Nat.testBit_two_pow_sub_one]
  by_cases hji : j ≤ i
  · have : ¬(i - j < 1) := by omega
    simp [hi, hji, this]
  · simp [hi, hji]

/-! ### Coarsening entry points (coarsen.cpp) -/

/-- Options consumed by the coarsening entry points (`AdaptOpts`). -/
structure AdaptOpts where
  min_length_desired : ℚ
  max_length_desired : ℚ
  min_quality_desired : ℚ
  nsliver_layers : ℕ

/-- Modelled from the spec: `each_lt` (array.hpp is not in the source tree),
the elementwise predicate `a[i] < b` producing 0/1 bytes
(spec section 4.1). -/
def each_lt (a : List ℚ) (b : ℚ) : List ℤ :=
  a.map fun x => if x < b then 1 else 0

/-- Modelled from the spec: `max` over a byte array (array.hpp is not in the
source tree), a maximum reduction whose identity is the smallest
representable I8 value. -/
def maxI8 (a : List ℤ) : ℤ := a.foldl max (-128)

lemma foldl_max_le {b : ℤ} : ∀ (a : List ℤ) (c : ℤ), c ≤ b →
    (∀ x ∈ a, x ≤ b) → a.foldl max c ≤ b := by
  intro a
  induction a with
  | nil => intro c hc _; simpa using hc
  | cons x t ih =>
    intro c hc hall
    simp only [List.foldl_cons]
    exact ih (max c x) (max_le hc (hall x (List.mem_cons_self x t)))
      fun y hy => hall y (List.mem_cons_of_mem x hy)

lemma maxI8_ne_one {a : List ℤ} (h : ∀ x ∈ a, x ≤ 0) : maxI8 a ≠ 1 := by
  have := foldl_max_le a (-128) (show (-128 : ℤ) ≤ 0 by omega) h
  unfold maxI8
  omega

/-- `coarsen_by_size` from coarsen.cpp lines 214-221, single rank
(`comm->allreduce` of one value is that value).  The mesh is abstract
(type `M`); `ask_lengths` supplies the per-edge metric lengths and
`coarsen_ents` stands for the rest of the coarsening pipeline
(coarsen.cpp lines 208-212), which is reached only when a candidate
exists.  The in-place mutation of the C++ mesh is modelled by returning
the (possibly new) mesh next to the did-anything flag. -/
def coarsen_by_size {M : Type} (ask_lengths : M → List ℚ)
    (coarsen_ents : M → AdaptOpts → List ℤ → Bool × M)
    (mesh : M) (opts : AdaptOpts) : Bool × M :=
  let lengths := ask_lengths mesh
  let edge_is_cand := each_lt lengths opts.min_length_desired
  if maxI8 edge_is_cand ≠ 1 then (false, mesh)
  else coarsen_ents mesh opts edge_is_cand

/-- `coarsen_slivers` from coarsen.cpp lines 223-231, single rank.
`set_parting_ghosted` models `mesh->set_parting(OMEGA_H_GHOSTED)` and
`mark_sliver_layers` (mark.hpp is not in the source tree) supplies the
element candidate marks.  The source asserts
`CHECK(comm->allreduce(max(elems_are_cands), OMEGA_H_MAX) == 1)`: a failed
`CHECK` aborts the program, modelled by `none`. -/
def coarsen_slivers {M : Type} (set_parting_ghosted : M → M)
    (mark_sliver_layers : M → ℚ → ℕ → List ℤ)
    (coarsen_ents : M → AdaptOpts → List ℤ → Bool × M)
    (mesh : M) (opts : AdaptOpts) : Option (Bool × M) :=
  let mesh2 := set_parting_ghosted mesh
  let elems_are_cands :=
    mark_sliver_layers mesh2 opts.min_quality_desired opts.nsliver_layers
  if maxI8 elems_are_cands = 1 then some (coarsen_ents mesh2 opts elems_are_cands)
  else none

/-- Counterexample for C1 as stated: on a mesh where `mark_sliver_layers`
marks no element, `coarsen_slivers` does not return the did-nothing signal
`false`; it fails its `CHECK` assertion and aborts (result `none`). -/
theorem coarsen_slivers_aborts_counterexample :
    coarsen_slivers (M := ℕ) id (fun _ _ _ => [0, 0])
      (fun m _ _ => (true, m)) 0 ⟨1, 2, 1/2, 2⟩ = none ∧
    ∀ m : ℕ, coarsen_slivers (M := ℕ) id (fun _ _ _ => [0, 0])
      (fun m _ _ => (true, m)) 0 ⟨1, 2, 1/2, 2⟩ ≠ some (false, m) := by
  have hnone : coarsen_slivers (M := ℕ) id (fun _ _ _ => [0, 0])
      (fun m _ _ => (true, m)) 0 ⟨1, 2, 1/2, 2⟩ = none := rfl
  refine ⟨hnone, fun m h => ?_⟩
  rw [hnone] at h
  exact Option.noConfusion h

/-- C1 (amended): when no candidate edge is short enough,
`coarsen_by_size` returns the did-nothing signal `false` with the mesh left
untouched; `coarsen_slivers`, however, does not return `false` when no
sliver-layer element is marked — it asserts via `CHECK` that some element
is marked, aborting otherwise. -/
theorem coarsen_no_candidates :
    (∀ (M : Type) (ask_lengths : M → List ℚ)
      (coarsen_ents : M → AdaptOpts → List ℤ → Bool × M)
      (mesh : M) (opts : AdaptOpts),
      (∀ len ∈ ask_lengths mesh, ¬(len < opts.min_length_desired)) →
      coarsen_by_size ask_lengths coarsen_ents mesh opts = (false, mesh)) ∧
    (∀ (M : Type) (set_parting_ghosted : M → M)
      (mark_sliver_layers : M → ℚ → ℕ → List ℤ)
      (coarsen_ents : M → AdaptOpts → List ℤ → Bool × M)
      (mesh : M) (opts : AdaptOpts),
      (∀ x ∈ mark_sliver_layers (set_parting_ghosted mesh)
          opts.min_quality_desired opts.nsliver_layers, x = 0) →
      coarsen_slivers set_parting_ghosted mark_sliver_layers coarsen_ents
        mesh opts = none) := by
  constructor
  · intro M ask_lengths coarsen_ents mesh opts hno
    unfold coarsen_by_size
    rw [if_pos]
    apply maxI8_ne_one
    intro x hx
    unfold each_lt at hx
    rw [List.mem_map] at hx
    obtain ⟨len, hlen, rfl⟩ := hx
    rw [if_neg (hno len hlen)]
  · intro M set_parting_ghosted mark_sliver_layers coarsen_ents mesh opts hno
    unfold coarsen_slivers
    rw [if_neg]
    apply maxI8_ne_one
    intro x hx
    rw [hno x hx]

/-- Witness for C1: both branches at concrete instantiations — a mesh whose
single edge has length 2 with `min_length_desired = 1` (no short edge), and
a sliver pass marking nothing. -/
theorem coarsen_no_candidates_witness :
    coarsen_by_size (M := ℕ) (fun _ => [2]) (fun m _ _ => (true, m)) 0
      ⟨1, 2, 1/2, 2⟩ = (false, 0) ∧
    coarsen_slivers (M := ℕ) id (fun _ _ _ => [0])
      (fun m _ _ => (true, m)) 0 ⟨1, 2, 1/2, 2⟩ = none :=
  ⟨coarsen_no_candidates.1 ℕ (fun _ => [2]) (fun m _ _ => (true, m)) 0
      ⟨1, 2, 1/2, 2⟩ (by norm_num),
   coarsen_no_candidates.2 ℕ id (fun _ _ _ => [0])
      (fun m _ _ => (true, m)) 0 ⟨1, 2, 1/2, 2⟩ (by norm_num)⟩

/-! ### Overshoot prevention (overshoot.cpp) -/

/-- An adjacency (spec section 3): offsets `a2ab`, targets `ab2b`, and an
alignment code per slot. -/
structure Adj where
  a2ab : List ℕ
  ab2b : List ℕ
  codes : List ℕ
deriving DecidableEq, Repr

/-- The predicted length of the incident edge at up-adjacency slot `ve`
after the collapsing vertex is replaced by `v_onto` (overshoot.cpp lines
28-36): the slot's alignment code tells which endpoint of the incident edge
is the collapsing vertex (`eev_in`); that endpoint becomes `v_onto` and the
other endpoint is kept.  `measure` is the edge-length measurer
(`IsoEdgeLengths` / `MetricEdgeLengths` from size.hpp, an external
collaborator kept abstract), applied to the two endpoints in order. -/
def predicted_length (measure : ℕ → ℕ → ℚ) (ev2v : List ℕ) (v2e : Adj)
    (v_onto : ℕ) (ve : ℕ) : ℚ :=
  let e2 := getA v2e.ab2b ve
  let eev_in := code_which_down (getA v2e.codes ve)
  let eev_out := 1 - eev_in
  if eev_in = 0 then measure v_onto (getA ev2v (e2 * 2 + eev_out))
  else measure (getA ev2v (e2 * 2 + eev_out)) v_onto

/-- Whether collapse direction `eev_col` of edge `e` overshoots
(overshoot.cpp lines 22-41): some edge incident to the collapsing vertex,
other than `e` itself, has predicted length at least
`max_length_desired`.  The C loop breaks at the first such edge; since the
loop body has no other effect, this equals an existence test over the
incident slots. -/
def direction_overshoots (maxlength : ℚ) (measure : ℕ → ℕ → ℚ)
    (ev2v : List ℕ) (v2e : Adj) (e : ℕ) (eev_col : ℕ) : Bool :=
  let v_col := getA ev2v (e * 2 + eev_col)
  let v_onto := getA ev2v (e * 2 + (1 - eev_col))
  let start := getA v2e.a2ab v_col
  let deg := getA v2e.a2ab (v_col + 1) - start
  (List.range deg).any fun k =>
    let ve := start + k
    decide (getA v2e.ab2b ve ≠ e) &&
      decide (maxlength ≤ predicted_length measure ev2v v2e v_onto ve)

/-- One direction of the candidate loop body of `prevent_overshoot_tmpl`
(overshoot.cpp lines 22-42): a direction not present in the code is skipped;
a present direction is stripped exactly when it overshoots. -/
def strip_direction (maxlength : ℚ) (measure : ℕ → ℕ → ℚ) (ev2v : List ℕ)
    (v2e : Adj) (e : ℕ) (code : ℕ) (eev_col : ℕ) : ℕ :=
  if collapses code eev_col then
    if direction_overshoots maxlength measure ev2v v2e e eev_col then
      dont_collapse code eev_col
    else code
  else code

/-- Modelled from the spec: `mesh->sync_subset_array` exchanges the
candidate codes with the other ranks holding copies; on a single rank it
returns its input unchanged. -/
def sync_subset_array (a : List ℕ) : List ℕ := a

/-- `prevent_overshoot_tmpl` from overshoot.cpp lines 10-48, single rank:
for every candidate edge, each collapse direction set in the candidate's
code is examined in order `eev_col = 0, 1` (the code value is threaded
through the loop) and stripped when it overshoots.  The `prevent_overshoot`
dispatcher (lines 50-69) only selects the edge-length measurer from the
mesh's size or metric tag and dimension, which is the abstract `measure`
parameter here. -/
def prevent_overshoot_tmpl (maxlength : ℚ) (measure : ℕ → ℕ → ℚ)
    (ev2v : List ℕ) (v2e : Adj) (cands2edges cand_codes : List ℕ) : List ℕ :=
  sync_subset_array <| (List.range cands2edges.length).map fun cand =>
    let e := getA cands2edges cand
    strip_direction maxlength measure ev2v v2e e
      (strip_direction maxlength measure ev2v v2e e (getA cand_codes cand) 0) 1

lemma collapses_strip_other (maxlength : ℚ) (measure : ℕ → ℕ → ℚ)
    (ev2v : List ℕ) (v2e : Adj) (e : ℕ) (code : ℕ) (i j : ℕ) (hi : i < 8)
    (hij : i ≠ j) :
    collapses (strip_direction maxlength measure ev2v v2e e code j) i =
      collapses code i := by
  unfold strip_direction
  by_cases h1 : collapses code j = true
  · rw [if_pos h1]
    by_cases h2 : direction_overshoots maxlength measure ev2v v2e e j = true
    · rw [if_pos h2, collapses_dont_collapse_other _ i j hi hij]
    · rw [if_neg h2]
  · rw [if_neg h1]

lemma collapses_strip_self (maxlength : ℚ) (measure : ℕ → ℕ → ℚ)
    (ev2v : List ℕ) (v2e : Adj) (e : ℕ) (code : ℕ) (j : ℕ) (hj : j < 8)
    (hset : collapses code j = true) :
    collapses (strip_direction maxlength measure ev2v v2e e code j) j =
      !(direction_overshoots maxlength measure ev2v v2e e j) := by
  unfold strip_direction
  rw [if_pos hset]
  by_cases h2 : direction_overshoots maxlength measure ev2v v2e e j = true
  · rw [if_pos h2, collapses_dont_collapse_self _ j hj, h2]
    rfl
  · rw [if_neg h2, hset, Bool.not_eq_true] at *
    rw [h2]
    rfl

lemma direction_overshoots_iff (maxlength : ℚ) (measure : ℕ → ℕ → ℚ)
    (ev2v : List ℕ) (v2e : Adj) (e : ℕ) (eev_col : ℕ) :
    direction_overshoots maxlength measure ev2v v2e e eev_col = true ↔
    ∃ ve, getA v2e.a2ab (getA ev2v (e * 2 + eev_col)) ≤ ve ∧
      ve < getA v2e.a2ab (getA ev2v (e * 2 + eev_col) + 1) ∧
      getA v2e.ab2b ve ≠ e ∧
      maxlength ≤ predicted_length measure ev2v v2e
        (getA ev2v (e * 2 + (1 - eev_col))) ve := by
  unfold direction_overshoots
  rw [List.any_eq_true]
  constructor
  · rintro ⟨k, hk, hp⟩
    rw [List.mem_range] at hk
    rw [Bool.and_eq_true, decide_eq_true_eq, decide_eq_true_eq] at hp
    exact ⟨getA v2e.a2ab (getA ev2v (e * 2 + eev_col)) + k, by omega, by omega,
      hp.1, hp.2⟩
  · rintro ⟨ve, h1, h2, h3, h4⟩
    refine ⟨ve - getA v2e.a2ab (getA ev2v (e * 2 + eev_col)),
      List.mem_range.mpr (by omega), ?_⟩
    rw [Bool.and_eq_true, decide_eq_true_eq, decide_eq_true_eq]
    have hve : getA v2e.a2ab (getA ev2v (e * 2 + eev_col)) +
        (ve - getA v2e.a2ab (getA ev2v (e * 2 + eev_col))) = ve := by omega
    rw [hve]
    exact ⟨h3, h4⟩

/-- C2 (amended): for every coarsening candidate edge and every collapse
direction set in its collapse code, `prevent_overshoot` removes that
direction from the code exactly when some edge incident to the collapsing
vertex `v_col` other than the collapsing edge itself, with `v_col` replaced
by `v_onto`, has predicted length greater than **or equal to**
`max_length_desired` (the source strips on `length >= maxlength`);
directions whose every such predicted length is strictly below that bound
keep their code bit unchanged. -/
theorem prevent_overshoot_strips_iff (maxlength : ℚ)
    (measure : ℕ → ℕ → ℚ) (ev2v : List ℕ) (v2e : Adj)
    (cands2edges cand_codes : List ℕ) (cand eev_col : ℕ)
    (hcand : cand < cands2edges.length) (heev : eev_col < 2)
    (hset : collapses (getA cand_codes cand) eev_col = true) :
    collapses (getA (prevent_overshoot_tmpl maxlength measure ev2v v2e
        cands2edges cand_codes) cand) eev_col = false ↔
      ∃ ve, getA v2e.a2ab (getA ev2v (getA cands2edges cand * 2 + eev_col)) ≤ ve ∧
        ve < getA v2e.a2ab
          (getA ev2v (getA cands2edges cand * 2 + eev_col) + 1) ∧
        getA v2e.ab2b ve ≠ getA cands2edges cand ∧
        maxlength ≤ predicted_length measure ev2v v2e
          (getA ev2v (getA cands2edges cand * 2 + (1 - eev_col))) ve := by
  have hout : getA (prevent_overshoot_tmpl maxlength measure ev2v v2e
      cands2edges cand_codes) cand =
      strip_direction maxlength measure ev2v v2e (getA cands2edges cand)
        (strip_direction maxlength measure ev2v v2e (getA cands2edges cand)
          (getA cand_codes cand) 0) 1 := by
    unfold prevent_overshoot_tmpl sync_subset_array
    rw [getA_map_range, if_pos hcand]
  rw [hout]
  rw [← direction_overshoots_iff maxlength measure ev2v v2e
    (getA cands2edges cand) eev_col]
  set e := getA cands2edges cand
  set code := getA cand_codes cand
  interval_cases eev_col
  · -- direction 0: the second strip pass does not affect bit 0
    rw [collapses_strip_other maxlength measure ev2v v2e e _ 0 1 (by omega)
      (by omega),
      collapses_strip_self maxlength measure ev2v v2e e code 0 (by omega) hset]
    cases direction_overshoots maxlength measure ev2v v2e e 0 <;> simp
  · -- direction 1: the first strip pass does not affect bit 1
    have hb : collapses (strip_direction maxlength measure ev2v v2e e code 0)
        1 = true := by
      rw [collapses_strip_other maxlength measure ev2v v2e e code 1 0
        (by omega) (by omega)]
      exact hset
    rw [collapses_strip_self maxlength measure ev2v v2e e _ 1 (by omega) hb]
    cases direction_overshoots maxlength measure ev2v v2e e 1 <;> simp

/-- Witness for C2: the amended characterization at a concrete two-edge
configuration where the incident edge `(0, 2)` measures 5 after vertex 0 is
replaced by vertex 1, overshooting the bound 3, so direction 0 of the
candidate is stripped. -/
theorem prevent_overshoot_strips_iff_witness :
    collapses (getA (prevent_overshoot_tmpl 3
        (fun a b => if a = 1 ∧ b = 2 then 5 else 0) [0, 1, 0, 2]
        ⟨[0, 2, 3, 4], [0, 1, 0, 1], [0, 0, 8, 8]⟩ [0] [1]) 0) 0 = false ↔
      ∃ ve, getA [0, 2, 3, 4] (getA [0, 1, 0, 2] (getA [0] 0 * 2 + 0)) ≤ ve ∧
        ve < getA [0, 2, 3, 4] (getA [0, 1, 0, 2] (getA [0] 0 * 2 + 0) + 1) ∧
        getA [0, 1, 0, 1] ve ≠ getA [0] 0 ∧
        (3 : ℚ) ≤ predicted_length (fun a b => if a = 1 ∧ b = 2 then 5 else 0)
          [0, 1, 0, 2] ⟨[0, 2, 3, 4], [0, 1, 0, 1], [0, 0, 8, 8]⟩
          (getA [0, 1, 0, 2] (getA [0] 0 * 2 + (1 - 0))) ve :=
  prevent_overshoot_strips_iff 3 (fun a b => if a = 1 ∧ b = 2 then 5 else 0)
    [0, 1, 0, 2] ⟨[0, 2, 3, 4], [0, 1, 0, 1], [0, 0, 8, 8]⟩ [0] [1] 0 0
    (by decide) (by decide) (by decide)

/-- Counterexample for C2 as stated: with the bound 3 and an incident edge
whose predicted length is exactly 3, the direction is stripped (the source
tests `length >= maxlength`) although no predicted length strictly exceeds
the bound, contradicting the claim's strict reading of "exceeding". -/
theorem prevent_overshoot_strict_counterexample :
    collapses (getA (prevent_overshoot_tmpl 3
        (fun a b => if a = 1 ∧ b = 2 then 3 else 0) [0, 1, 0, 2]
        ⟨[0, 2, 3, 4], [0, 1, 0, 1], [0, 0, 8, 8]⟩ [0] [1]) 0) 0 = false ∧
    ∀ ve, ve < 4 →
      ¬(3 < predicted_length (fun a b => if a = 1 ∧ b = 2 then 3 else 0)
          [0, 1, 0, 2] ⟨[0, 2, 3, 4], [0, 1, 0, 1], [0, 0, 8, 8]⟩ 1 ve) := by
  constructor
  · decide
  · decide

/-! ### Laplacian smoothing (laplace.cpp) -/

/-- Modelled from the spec: `mark_by_class_dim(mesh, VERT, dim)` (mark.hpp
is not in the source tree): marks the vertices whose classification
dimension equals `dim` (for `dim` the mesh dimension, the
interior-classified vertices). -/
def mark_by_class_dim (class_dim : List ℕ) (dim : ℕ) : List Bool :=
  class_dim.map fun c => c = dim

/-- Modelled from the spec: `invert_marks` — elementwise negation. -/
def invert_marks (marks : List Bool) : List Bool := marks.map not

/-- Modelled from the spec: `collect_marked(mark)` — the ascending indices
where the mark is set (spec section 4.1). -/
def collect_marked (marks : List Bool) : List ℕ :=
  (List.range marks.length).filter fun i => marks.getD i false

/-- Modelled from the spec: `map_into(a_data, a2b, b_data, width)` writes
`a_data[i]` into entry `a2b[i]` of `b_data` componentwise (`a2b`
injective); entries not written keep their value. -/
def map_into (a_data : List ℚ) (a2b : List ℕ) (b_data : List ℚ)
    (width : ℕ) : List ℚ :=
  (List.range b_data.length).map fun j =>
    match (List.range a2b.length).find? (fun i => getA a2b i = j / width) with
    | some i => a_data.getD (i * width + j % width) 0
    | none => b_data.getD j 0

/-- One iteration of the `solve_laplacian` do-while loop (laplace.cpp lines
27-37), single rank: weighted average over the vertex star graph
(`graph_weighted_average`, an external collaborator kept abstract as
`avg`), deep copy, then `map_into` of the boundary data; `sync_array` is
the identity on one rank. -/
def laplace_step (avg : List ℚ → List ℚ) (b2v : List ℕ) (bc_data : List ℚ)
    (width : ℕ) (state : List ℚ) : List ℚ :=
  map_into bc_data b2v (avg state) width

/-- `solve_laplacian` from laplace.cpp lines 13-42 after `k` loop
iterations, single rank.  Before the loop, `b2v` collects the vertices not
classified on the model interior dimension and `bc_data` gathers their
initial values (the source spells this gather `unmap(b2v, initial, width)`;
in the spec's section 4.1 vocabulary used in this file it is the gather
`map`).  The source iterates until `are_close(state, new_state)` holds on
all ranks and returns the final state, which is this function at the final
iteration count. -/
def solve_laplacian_iter (avg : List ℚ → List ℚ) (class_dim : List ℕ)
    (dim : ℕ) (initial : List ℚ) (width k : ℕ) : List ℚ :=
  let interior := mark_by_class_dim class_dim dim
  let boundary := invert_marks interior
  let b2v := collect_marked boundary
  let bc_data := map b2v initial width
  (laplace_step avg b2v bc_data width)^[k] initial

lemma laplace_step_length (avg : List ℚ → List ℚ) (b2v : List ℕ)
    (bc_data : List ℚ) (width : ℕ) (s : List ℚ)
    (havg : (avg s).length = s.length) :
    (laplace_step avg b2v bc_data width s).length = s.length := by
  unfold laplace_step map_into
  rw [List.length_map, List.length_range, havg]

lemma mem_collect_boundary (class_dim : List ℕ) (dim v : ℕ)
    (hv : v < class_dim.length) (hb : getA class_dim v ≠ dim) :
    v ∈ collect_marked (invert_marks (mark_by_class_dim class_dim dim)) := by
  unfold collect_marked invert_marks mark_by_class_dim
  rw [List.mem_filter]
  have hgetv : class_dim.get ⟨v, hv⟩ = getA class_dim v := by
    unfold getA
    rw [List.getD_eq_getElem?_getD, List.getElem?_eq_getElem hv]
    rfl
  constructor
  · rw [List.mem_range, List.length_map, List.length_map]
    exact hv
  · rw [List.getD_eq_getElem?_getD, List.getElem?_map, List.getElem?_map,
      List.getElem?_eq_getElem hv]
    simp only [Option.map_some', Option.getD_some, Bool.not_eq_true',
      decide_eq_false_iff_not]
    rw [show class_dim[v] = getA class_dim v from hgetv]
    exact hb

/-- C10: for every mesh and initial field, `solve_laplacian` leaves the
values at boundary-classified vertices (those not classified on the model
interior dimension) exactly equal to their initial values after every
iteration — hence also in the returned array, which is the state after the
final iteration; only interior-classified vertex values change. -/
theorem solve_laplacian_boundary_frame (avg : List ℚ → List ℚ)
    (class_dim : List ℕ) (dim : ℕ) (initial : List ℚ) (width : ℕ)
    (v c k : ℕ) (hlen : initial.length = class_dim.length * width)
    (havg : ∀ s : List ℚ, (avg s).length = s.length)
    (hw : 0 < width) (hv : v < class_dim.length)
    (hb : getA class_dim v ≠ dim) (hc : c < width) :
    (solve_laplacian_iter avg class_dim dim initial width k).getD
        (v * width + c) 0 = initial.getD (v * width + c) 0 := by
  unfold solve_laplacian_iter
  set b2v := collect_marked (invert_marks (mark_by_class_dim class_dim dim))
    with hb2v
  set bc_data := map b2v initial width with hbc
  have hiter_len : ∀ n : ℕ,
      ((laplace_step avg b2v bc_data width)^[n] initial).length =
        initial.length := by
    intro n
    induction n with
    | zero => rfl
    | succ m ih =>
      rw [Function.iterate_succ_apply', laplace_step_length _ _ _ _ _ (havg _),
        ih]
  induction k with
  | zero => rfl
  | succ m ih =>
    rw [Function.iterate_succ_apply']
    set s := (laplace_step avg b2v bc_data width)^[m] initial with hs
    have hslen : s.length = initial.length := hiter_len m
    unfold laplace_step map_into
    have hj : v * width + c < (avg s).length := by
      rw [havg, hslen, hlen]
      calc v * width + c < v * width + width := by omega
        _ = (v + 1) * width := by ring
        _ ≤ class_dim.length * width := Nat.mul_le_mul_right _ (by omega)
    rw [getD_map_range_q, if_pos hj]
    have hjdiv : (v * width + c) / width = v := by
      rw [Nat.mul_comm v width, Nat.mul_add_div hw, Nat.div_eq_of_lt hc,
        Nat.add_zero]
    have hjmod : (v * width + c) % width = c := by
      rw [Nat.mul_comm v width, Nat.mul_add_mod]
      exact Nat.mod_eq_of_lt hc
    have hmem : v ∈ b2v := mem_collect_boundary class_dim dim v hv hb
    obtain ⟨i, hi, hgi⟩ := List.mem_iff_getElem.mp hmem
    have hsome : ((List.range b2v.length).find?
        (fun i => getA b2v i = (v * width + c) / width)).isSome := by
      rw [List.find?_isSome]
      refine ⟨i, List.mem_range.mpr hi, ?_⟩
      simp only [decide_eq_true_eq]
      unfold getA
      rw [List.getD_eq_getElem?_getD, List.getElem?_eq_getElem hi, hjdiv]
      exact hgi
    obtain ⟨i₀, hfind⟩ := Option.isSome_iff_exists.mp hsome
    have hp : getA b2v i₀ = v := by
      have := List.find?_some hfind
      rw [decide_eq_true_eq] at this
      rw [this, hjdiv]
    have hi₀ : i₀ < b2v.length :=
      List.mem_range.mp (List.mem_of_find?_eq_some hfind)
    rw [hfind]
    dsimp only
    rw [← hb2v]
    unfold map
    rw [getD_map_range_q]
    have hidx : i₀ * width + (v * width + c) % width < b2v.length * width := by
      rw [hjmod]
      calc i₀ * width + c < i₀ * width + width := by omega
        _ = (i₀ + 1) * width := by ring
        _ ≤ b2v.length * width := Nat.mul_le_mul_right _ (by omega)
    rw [if_pos hidx]
    have hdiv2 : (i₀ * width + (v * width + c) % width) / width = i₀ := by
      rw [hjmod, Nat.mul_comm i₀ width, Nat.mul_add_div hw,
        Nat.div_eq_of_lt hc, Nat.add_zero]
    have hmod2 : (i₀ * width + (v * width + c) % width) % width = c := by
      rw [hjmod, Nat.mul_comm i₀ width, Nat.mul_add_mod]
      exact Nat.mod_eq_of_lt hc
    rw [hdiv2, hmod2, hp]

/-- Witness for C10: three iterations of a constant-100 averaging on a mesh
with one boundary vertex (class_dim 0) and one interior vertex (class_dim
2, the mesh dimension): the boundary value 5 is preserved. -/
theorem solve_laplacian_boundary_frame_witness :
    (solve_laplacian_iter (fun s => s.map fun _ => 100) [0, 2] 2 [5, 7] 1
        3).getD (0 * 1 + 0) 0 = ([5, 7] : List ℚ).getD (0 * 1 + 0) 0 :=
  solve_laplacian_boundary_frame (fun s => s.map fun _ => 100) [0, 2] 2
    [5, 7] 1 0 0 3 (by decide) (fun s => by simp) (by decide) (by decide)
    (by decide) (by decide)

/-! ### 2D swap topology (swap2d.hpp, `test_swap2d_topology`) -/

/-- Exclusive prefix sum (spec section 4.1): `offsets[0] = 0`,
`offsets[n] = sum`. -/
def offset_scan (counts : List ℕ) : List ℕ :=
  (List.range (counts.length + 1)).map fun i => (counts.take i).sum

/-- The products of `swap2d_topology`, per produced entity dimension (the
`HostFew<LOs, 3>` outputs at indices EDGE and TRI; nothing is produced at
dimension VERT). -/
structure Swap2dProducts where
  keys2prods_edge : List ℕ
  keys2prods_tri : List ℕ
  prod_verts2verts_edge : List ℕ
  prod_verts2verts_tri : List ℕ
deriving DecidableEq, Repr

/-- The vertex of triangle `t` (vertex tuples in `tv2v`) that is on neither
endpoint of the key edge `(a, b)`. -/
def opposite_vert (tv2v : List ℕ) (t a b : ℕ) : ℕ :=
  match (List.range 3).find? (fun j =>
      decide (getA tv2v (t * 3 + j) ≠ a ∧ getA tv2v (t * 3 + j) ≠ b)) with
  | some j => getA tv2v (t * 3 + j)
  | none => 0

/-- Modelled from the spec: `swap2d_topology` (declared in swap2d.hpp; its
implementation file is not in the source tree).  Spec section 4.6: the 2D
edge-flip rewrite "swaps two triangles and replaces the edge".  For a key
edge with vertices `(a, b)` and adjacent triangles `t0, t1` in up-adjacency
order, with opposite vertices `c0` in `t0` and `c1` in `t1`, the products
are one edge `(c1, c0)` and the two triangles `(b, c1, c0)` and
`(a, c0, c1)`, the orientation convention fixed by the spec's 2D swap
scenario; each key yields one edge and two triangles, so the key-to-product
offset arrays are `offset_scan` of ones and of twos. -/
def swap2d_topology (ev2v tv2v : List ℕ) (e2t : Adj) (keys2edges : List ℕ) :
    Swap2dProducts :=
  let nkeys := keys2edges.length
  { keys2prods_edge := offset_scan (List.replicate nkeys 1)
    keys2prods_tri := offset_scan (List.replicate nkeys 2)
    prod_verts2verts_edge := keys2edges.flatMap fun e =>
      let a := getA ev2v (e * 2)
      let b := getA ev2v (e * 2 + 1)
      let t0 := getA e2t.ab2b (getA e2t.a2ab e)
      let t1 := getA e2t.ab2b (getA e2t.a2ab e + 1)
      [opposite_vert tv2v t1 a b, opposite_vert tv2v t0 a b]
    prod_verts2verts_tri := keys2edges.flatMap fun e =>
      let a := getA ev2v (e * 2)
      let b := getA ev2v (e * 2 + 1)
      let t0 := getA e2t.ab2b (getA e2t.a2ab e)
      let t1 := getA e2t.ab2b (getA e2t.a2ab e + 1)
      let c0 := opposite_vert tv2v t0 a b
      let c1 := opposite_vert tv2v t1 a b
      [b, c1, c0, a, c0, c1] }

/-- Modelled from the spec: the triangle vertex tuples of the 1×1 unit-box
mesh built by `build_box(mesh, 1, 1, 0, 1, 1, 0)` — two triangles sharing
the diagonal; triangle 0 holds vertices `{0, 1, 3}` and triangle 1 holds
`{0, 2, 3}` (fixed by `test_mark_up_down` in unit_tests.cpp: marking
triangle 0 downward marks vertices `{0, 1, 3}`, and vertex 1 lies only in
triangle 0). -/
def unitBoxTris2Verts : List ℕ := [0, 1, 3, 0, 3, 2]

/-- Modelled from the spec: the edge vertex tuples of the unit-box mesh;
the spec's 2D swap scenario fixes the shared diagonal as edge 2, with
vertices `(0, 3)`. -/
def unitBoxEdges2Verts : List ℕ := [0, 1, 1, 3, 0, 3, 0, 2, 2, 3]

/-- Modelled from the spec: the edge-to-triangle up adjacency of the
unit-box mesh — each boundary edge has one adjacent triangle, the diagonal
edge 2 has triangles 0 and 1 (alignment codes unused here). -/
def unitBoxEdges2Tris : Adj :=
  { a2ab := [0, 1, 2, 4, 5, 6], ab2b := [0, 0, 0, 1, 1, 1], codes := [] }

/-- C8: on the 1×1 unit-box mesh of two triangles sharing edge 2,
`swap2d_topology` with `keys2edges = [2]` produces exactly two new
triangles with vertex tuples `(3, 2, 1)` and `(0, 1, 2)` and exactly one
new edge with vertex tuple `(2, 1)`. -/
theorem swap2d_topology_scenario :
    swap2d_topology unitBoxEdges2Verts unitBoxTris2Verts unitBoxEdges2Tris
        [2] =
      { keys2prods_edge := offset_scan [1]
        keys2prods_tri := offset_scan [2]
        prod_verts2verts_edge := [2, 1]
        prod_verts2verts_tri := [3, 2, 1, 0, 1, 2] } := by
  decide

end OmegaH
